import Mathlib

/-!
Shallow embedding of the reader/writer table arbiter (`Table.cc` / `Table.h`)
and the request generator (`User.cc` / `User.h`) of the simulated
shared-database project.  Simulated times and C++ doubles are modelled as
rationals, OMNeT++ message parameters as `Option` fields (present iff
`hasPar` would be true), and message kinds as integers (0 = READ,
1 = WRITE, as set by `User::sendAccessRequest`).
-/

/-- A request message as built by `User::sendAccessRequest`: a kind
(0 = READ, 1 = WRITE) and the `userId`, `arrivalTime`, `serviceTime`
parameters, each of which may be absent on a foreign message. -/
structure Request where
  kind : Int
  userId : Option Int
  arrivalTime : Option ℚ
  serviceTime : Option ℚ
  deriving Repr, DecidableEq

/-- True iff the request is a READ (`getKind() == 0`). -/
def Request.isRead (r : Request) : Bool := r.kind == 0

/-- A scheduled service-completion self-message (`serviceDone-...`): it
carries the original request via the context pointer and fires at
`scheduledTime` (admission time plus service time). -/
structure Pending where
  req : Request
  scheduledTime : ℚ
  deriving Repr, DecidableEq

/-- The response message built in `Table::handleMessage` on a completion:
the kind is preserved from the original request and the `arrivalTime`
parameter is copied when present on the original. -/
structure Response where
  kind : Int
  arrivalTime : Option ℚ
  deriving Repr, DecidableEq

/-- The per-table mutable state of `Table` (the fields of `Table.h` that
the event handlers touch). -/
structure TableState where
  requestQueue : List Request
  activeReaders : Int
  writeActive : Bool
  totalServed : Nat
  totalReads : Nat
  totalWrites : Nat
  totalBusyTime : ℚ
  lastStateChange : ℚ
  maxQueueLength : Nat
  totalQueueLength : ℚ
  queueLengthSamples : Nat
  totalWaitingTime : ℚ
  serviceEvents : List Pending
  deriving Repr, DecidableEq

/-- `Table::initialize` run at simulated time 0: all counters zero, empty
queue, no recorded service events, `lastStateChange = simTime() = 0`. -/
def initTable : TableState :=
  { requestQueue := [], activeReaders := 0, writeActive := false,
    totalServed := 0, totalReads := 0, totalWrites := 0,
    totalBusyTime := 0, lastStateChange := 0,
    maxQueueLength := 0, totalQueueLength := 0, queueLengthSamples := 0,
    totalWaitingTime := 0, serviceEvents := [] }

/-- The completion event created in `Table::startServiceForRequest`: the
service time is the request's `serviceTime` parameter, defaulting to 1.0
when the parameter is absent; the event fires at `now + serviceTime`. -/
def pendingOf (now : ℚ) (req : Request) : Pending :=
  { req := req, scheduledTime := now + req.serviceTime.getD 1 }

/-- `Table::startServiceForRequest`: record the completion event, account
the queueing wait when the request carries an `arrivalTime`, update the
reader/writer state, and when the table was idle open a new busy period
(`lastStateChange = simTime()`). -/
def startServiceForRequest (now : ℚ) (req : Request) (s : TableState) :
    TableState :=
  let s1 := { s with serviceEvents := s.serviceEvents ++ [pendingOf now req] }
  let s2 := match req.arrivalTime with
    | some a => { s1 with totalWaitingTime := s1.totalWaitingTime + (now - a) }
    | none => s1
  let wasBusy := 0 < s2.activeReaders ∨ s2.writeActive = true
  let s3 := if req.isRead then { s2 with activeReaders := s2.activeReaders + 1 }
            else { s2 with writeActive := true }
  if wasBusy then s3 else { s3 with lastStateChange := now }

/-- The while-loop of `Table::processQueue`.  The list argument is the
current `requestQueue` (the loop re-reads `front()` at each iteration;
the state's `requestQueue` field is kept equal to the list as the loop
pops).  A READ at the head is admitted and the loop continues; a WRITE is
admitted only when `activeReaders == 0` and then the pass stops; a WRITE
facing active readers stops the pass without dequeuing. -/
def processQueueGo (now : ℚ) : List Request → TableState → TableState
  | [], s => s
  | req :: rest, s =>
    if req.isRead then
      processQueueGo now rest
        (startServiceForRequest now req { s with requestQueue := rest })
    else if s.activeReaders = 0 then
      startServiceForRequest now req { s with requestQueue := rest }
    else s

/-- `Table::processQueue`: if a write is in progress everything is
blocked; otherwise run the admission loop over the queue. -/
def processQueue (now : ℚ) (s : TableState) : TableState :=
  if s.writeActive then s else processQueueGo now s.requestQueue s

/-- The arrival branch of `Table::handleMessage`: push the request at the
tail of the FIFO queue, sample the queue-length statistics
(post-insertion), then run the admission pass. -/
def handleArrival (now : ℚ) (req : Request) (s : TableState) : TableState :=
  let s1 := { s with requestQueue := s.requestQueue ++ [req] }
  let qlen := s1.requestQueue.length
  let s2 := { s1 with
    maxQueueLength := max s1.maxQueueLength qlen,
    totalQueueLength := s1.totalQueueLength + (qlen : ℚ),
    queueLengthSamples := s1.queueLengthSamples + 1 }
  processQueue now s2

/-- The `serviceDone` branch of `Table::handleMessage`, firing the `i`-th
recorded service event: build the response (kind preserved, `arrivalTime`
copied; it is sent only when the request carried a `userId ≥ 0`), bump
the served counters, release the event record, update the reader/writer
state (the reader count is floored at 0 defensively), close the busy
period when the table becomes fully idle, and re-run the admission pass.
An out-of-range index models a `serviceDone` with a null context pointer,
which is discarded without touching the state. -/
def handleCompletion (now : ℚ) (i : Nat) (s : TableState) :
    TableState × Option Response :=
  match s.serviceEvents[i]? with
  | none => (s, none)
  | some evt =>
    let orig := evt.req
    let uid := orig.userId.getD (-1)
    let resp : Option Response :=
      if 0 ≤ uid then some { kind := orig.kind, arrivalTime := orig.arrivalTime }
      else none
    let s1 := { s with
      totalServed := s.totalServed + 1,
      totalReads := s.totalReads + (if orig.isRead then 1 else 0),
      totalWrites := s.totalWrites + (if orig.isRead then 0 else 1),
      serviceEvents := s.serviceEvents.eraseIdx i }
    let s2 := if orig.isRead then
        { s1 with activeReaders :=
          if s1.activeReaders - 1 < 0 then 0 else s1.activeReaders - 1 }
      else { s1 with writeActive := false }
    let s3 := if s2.activeReaders = 0 ∧ s2.writeActive = false then
        { s2 with totalBusyTime := s2.totalBusyTime + (now - s2.lastStateChange),
                  lastStateChange := now }
      else s2
    (processQueue now s3, resp)

/-- Truncation toward zero, as a C `(int)` cast of a double. -/
def ratTrunc (q : ℚ) : Int := if 0 ≤ q then ⌊q⌋ else ⌈q⌉

/-- The final report of `Table::finish` at simulation end time `tEnd`:
the throughput signal carries the raw `totalServed` count; the mean queue
length is emitted only when samples exist; utilization only when the
duration is positive, adding the still-open busy interval when the table
is busy at finalize time; the mean queueing wait only when something was
served. -/
structure TableReport where
  throughput : ℚ
  meanQueueLength : Option Int
  utilization : Option ℚ
  totalServed : Nat
  totalReads : Nat
  totalWrites : Nat
  maxQueueLength : Nat
  avgWaitingTime : Option ℚ
  deriving Repr, DecidableEq

/-- `Table::finish` evaluated at simulation end time `tEnd`. -/
def tableFinish (tEnd : ℚ) (s : TableState) : TableReport :=
  let busyTime := s.totalBusyTime +
    (if 0 < s.activeReaders ∨ s.writeActive = true then tEnd - s.lastStateChange
     else 0)
  { throughput := (s.totalServed : ℚ),
    meanQueueLength := if 0 < s.queueLengthSamples
      then some (ratTrunc (s.totalQueueLength / (s.queueLengthSamples : ℚ)))
      else none,
    utilization := if 0 < tEnd then some (busyTime / tEnd) else none,
    totalServed := s.totalServed,
    totalReads := s.totalReads,
    totalWrites := s.totalWrites,
    maxQueueLength := s.maxQueueLength,
    avgWaitingTime := if 0 < s.totalServed
      then some (s.totalWaitingTime / (s.totalServed : ℚ)) else none }

/-- The per-user mutable state of `User` (statistics fields of `User.h`,
plus the configuration the modelled operations read). -/
structure UserState where
  userId : Int
  serviceTime : ℚ
  totalAccesses : Nat
  totalReads : Nat
  totalWrites : Nat
  totalWaitTime : ℚ
  deriving Repr, DecidableEq

/-- `User::initialize`: zeroed statistics for user `uid` with configured
fixed service time `st`. -/
def initUser (uid : Int) (st : ℚ) : UserState :=
  { userId := uid, serviceTime := st, totalAccesses := 0, totalReads := 0,
    totalWrites := 0, totalWaitTime := 0 }

/-- The request built in `User::sendAccessRequest` at time `now`. -/
def mkRequest (u : UserState) (isRd : Bool) (now : ℚ) : Request :=
  { kind := if isRd then 0 else 1, userId := some u.userId,
    arrivalTime := some now, serviceTime := some u.serviceTime }

/-- The counter updates of the `accessTimer` branch of
`User::handleMessage`, for one access whose read/write coin came up
`isRd`. -/
def userAccessFire (isRd : Bool) (u : UserState) : UserState :=
  { u with
    totalReads := u.totalReads + (if isRd then 1 else 0),
    totalWrites := u.totalWrites + (if isRd then 0 else 1),
    totalAccesses := u.totalAccesses + 1 }

/-- `User::processTableResponse` at time `now`: reads the response's
`arrivalTime` parameter (reading a missing parameter is a runtime fault,
modelled as `none`), computes `waitTime = now - arrivalTime` and
accumulates it; returns the updated state with the computed wait time. -/
def processTableResponse (now : ℚ) (r : Response) (u : UserState) :
    Option (UserState × ℚ) :=
  match r.arrivalTime with
  | none => none
  | some a =>
    some ({ u with totalWaitTime := u.totalWaitTime + (now - a) }, now - a)

/-- C++ double division with a zero divisor yields an IEEE non-finite
value (Inf or NaN), never a finite number; `none` models that outcome. -/
def ddiv (a b : ℚ) : Option ℚ := if b = 0 then none else some (a / b)

/-- The final report of `User::finish`. -/
structure UserReport where
  totalAccesses : Nat
  totalReads : Nat
  totalWrites : Nat
  averageWaitTime : ℚ
  accessesPerSecond : Option ℚ
  deriving Repr, DecidableEq

/-- `User::finish` at end time `tEnd`: the mean wait is guarded
(`totalAccesses > 0`, else 0.0); `accessesPerSecond` is the unguarded
division `totalAccesses / simTime().dbl()`. -/
def userFinish (tEnd : ℚ) (u : UserState) : UserReport :=
  { totalAccesses := u.totalAccesses,
    totalReads := u.totalReads,
    totalWrites := u.totalWrites,
    averageWaitTime := if 0 < u.totalAccesses
      then u.totalWaitTime / (u.totalAccesses : ℚ) else 0,
    accessesPerSecond := ddiv (u.totalAccesses : ℚ) tEnd }

/-- C `fmod` on rationals: the remainder with the sign of the dividend,
`x - trunc(x/y) * y`. -/
def fmodQ (x y : ℚ) : ℚ := x - (ratTrunc (x / y) : ℚ) * y

/-- `User::selectTableLognormal` applied to the drawn lognormal value `x`:
`(int)(fmod(x, numTables))` followed by the two defensive clamps. -/
def selectTableLognormal (x : ℚ) (numTables : Int) : Int :=
  let tid := ratTrunc (fmodQ x (numTables : ℚ))
  let tid2 := if tid < 0 then 0 else tid
  if numTables ≤ tid2 then numTables - 1 else tid2

/-- A table together with the simulated clock. -/
structure Sim where
  table : TableState
  now : ℚ

/-- One dispatched event of the single-table timeline: an arrival from a
user at a time not before the current clock, or the firing of a recorded
service event at its scheduled time. -/
inductive Step : Sim → Sim → Prop where
  | arrival (σ : Sim) (t : ℚ) (req : Request) (hle : σ.now ≤ t) :
      Step σ ⟨handleArrival t req σ.table, t⟩
  | completion (σ : Sim) (t : ℚ) (i : Nat)
      (hlt : i < σ.table.serviceEvents.length) (hle : σ.now ≤ t)
      (hsched : (σ.table.serviceEvents.get ⟨i, hlt⟩).scheduledTime = t) :
      Step σ ⟨(handleCompletion t i σ.table).1, t⟩

/-- Table states reachable from the freshly initialized table at time 0. -/
inductive Reachable : Sim → Prop where
  | init : Reachable ⟨initTable, 0⟩
  | step {σ σ' : Sim} : Reachable σ → Step σ σ' → Reachable σ'

/-- A one-user/one-table composed system with the simulated clock. -/
structure SysState where
  user : UserState
  table : TableState
  now : ℚ

/-- One event of the composed one-user/one-table system: a user access
(timer fire: counters bumped, the request delivered to the table at the
same simulated time over the zero-delay gate), or a service completion
whose response, when one is sent, is processed by the user. -/
inductive SysStep : SysState → SysState → Prop where
  | access (σ : SysState) (t : ℚ) (isRd : Bool) (hle : σ.now ≤ t) :
      SysStep σ ⟨userAccessFire isRd σ.user,
                 handleArrival t (mkRequest σ.user isRd t) σ.table, t⟩
  | completionDelivered (σ : SysState) (t : ℚ) (i : Nat) (tb : TableState)
      (r : Response) (u' : UserState) (w : ℚ)
      (hlt : i < σ.table.serviceEvents.length) (hle : σ.now ≤ t)
      (hsched : (σ.table.serviceEvents.get ⟨i, hlt⟩).scheduledTime = t)
      (hc : handleCompletion t i σ.table = (tb, some r))
      (hu : processTableResponse t r σ.user = some (u', w)) :
      SysStep σ ⟨u', tb, t⟩
  | completionSilent (σ : SysState) (t : ℚ) (i : Nat) (tb : TableState)
      (hlt : i < σ.table.serviceEvents.length) (hle : σ.now ≤ t)
      (hsched : (σ.table.serviceEvents.get ⟨i, hlt⟩).scheduledTime = t)
      (hc : handleCompletion t i σ.table = (tb, none)) :
      SysStep σ ⟨σ.user, tb, t⟩

/-- The composed system at startup: fresh user `uid` with configured
service time `st`, fresh table, clock 0. -/
def initSys (uid : Int) (st : ℚ) : SysState :=
  { user := initUser uid st, table := initTable, now := 0 }

/-- Composed system states reachable from startup. -/
inductive SysReachable (uid : Int) (st : ℚ) : SysState → Prop where
  | init : SysReachable uid st (initSys uid st)
  | step {σ σ' : SysState} :
      SysReachable uid st σ → SysStep σ σ' → SysReachable uid st σ'

/-- The work-conserving property: never an idle table (no reader, no
writer) facing a non-empty queue. -/
def workConserving (s : TableState) : Prop :=
  ¬(s.requestQueue ≠ [] ∧ s.activeReaders = 0 ∧ s.writeActive = false)

/-- Number of recorded completion events for READ requests. -/
def countReads (l : List Pending) : Nat :=
  (l.filter (fun e => e.req.isRead)).length

/-- Number of recorded completion events for WRITE requests. -/
def countWrites (l : List Pending) : Nat :=
  (l.filter (fun e => !e.req.isRead)).length

/-- The inductive invariant of the table at clock time `now`: the reader
count and the writer flag agree with the recorded completion events,
writer and readers exclude each other, and the accumulated busy time plus
the still-open busy interval never exceeds the elapsed time. -/
def InvAt (s : TableState) (now : ℚ) : Prop :=
  s.activeReaders = (countReads s.serviceEvents : Int) ∧
  countWrites s.serviceEvents = (if s.writeActive then 1 else 0) ∧
  (s.writeActive = true → s.activeReaders = 0) ∧
  0 ≤ s.totalBusyTime ∧
  s.lastStateChange ≤ now ∧
  s.totalBusyTime +
    (if 0 < s.activeReaders ∨ s.writeActive = true then now - s.lastStateChange
     else 0) ≤ now

/-- Requests of a table still outstanding: waiting in the queue or in
service. -/
def tableOutstanding (s : TableState) : Nat :=
  s.requestQueue.length + s.serviceEvents.length

/-- A concrete READ request with arrival time `a` (service time 1). -/
def reqR (a : ℚ) : Request :=
  { kind := 0, userId := some 0, arrivalTime := some a, serviceTime := some 1 }

/-- A concrete WRITE request with arrival time `a` (service time 1). -/
def reqW (a : ℚ) : Request :=
  { kind := 1, userId := some 0, arrivalTime := some a, serviceTime := some 1 }

/-- A concrete table state: two READs queued ahead of a WRITE which is
ahead of a further READ, nothing in service. -/
def c1state : TableState :=
  { initTable with requestQueue := [reqR 1, reqR 2, reqW 3, reqR 4] }

/-- The table after one READ arrival at time 0 (reachable from startup). -/
def simA : Sim := ⟨handleArrival 0 (reqR 0) initTable, 0⟩

/-- The table after that READ's completion fires at time 1 (reachable). -/
def simB : Sim := ⟨(handleCompletion 1 0 simA.table).1, 1⟩

/-- The composed one-user system right after a single READ access at
time 0: the user has counted the access, the table has admitted it but
served nothing yet. -/
def c6SysEx : SysState :=
  ⟨userAccessFire true (initUser 0 1),
   handleArrival 0 (mkRequest (initUser 0 1) true 0) initTable, 0⟩

/-- A concrete table state with one READ in service (its completion event
recorded), as left by `simA`. -/
def c8state : TableState := simA.table

/-- `startServiceForRequest` in explicit record form: one completion event
appended, the queueing wait accounted when `arrivalTime` is present, the
reader counter or the writer flag bumped according to the kind, and the
busy-period start stamped when the table was idle. -/
theorem startService_eq (now : ℚ) (req : Request) (s : TableState) :
    startServiceForRequest now req s =
    { s with
      serviceEvents := s.serviceEvents ++ [pendingOf now req],
      totalWaitingTime := match req.arrivalTime with
        | some a => s.totalWaitingTime + (now - a)
        | none => s.totalWaitingTime,
      activeReaders := if req.isRead then s.activeReaders + 1 else s.activeReaders,
      writeActive := if req.isRead then s.writeActive else true,
      lastStateChange := if 0 < s.activeReaders ∨ s.writeActive = true
        then s.lastStateChange else now } := by
  unfold startServiceForRequest
  rcases harr : req.arrivalTime with _ | a <;>
    by_cases hb : (0 < s.activeReaders ∨ s.writeActive = true) <;>
    by_cases hr : req.isRead <;>
    simp [harr, hb, hr]


/-- Field of `startServiceForRequest`: the queue is untouched. -/
theorem startService_requestQueue (now : ℚ) (req : Request) (s : TableState) :
    (startServiceForRequest now req s).requestQueue = s.requestQueue := by
  rw [startService_eq]

/-- Field of `startServiceForRequest`: one completion event appended. -/
theorem startService_serviceEvents (now : ℚ) (req : Request) (s : TableState) :
    (startServiceForRequest now req s).serviceEvents =
      s.serviceEvents ++ [pendingOf now req] := by
  rw [startService_eq]

/-- Field of `startServiceForRequest`: the reader count grows by one on a
READ and is untouched on a WRITE. -/
theorem startService_activeReaders (now : ℚ) (req : Request) (s : TableState) :
    (startServiceForRequest now req s).activeReaders =
      (if req.isRead then s.activeReaders + 1 else s.activeReaders) := by
  rw [startService_eq]

/-- Field of `startServiceForRequest`: the writer flag is set on a WRITE
and untouched on a READ. -/
theorem startService_writeActive (now : ℚ) (req : Request) (s : TableState) :
    (startServiceForRequest now req s).writeActive =
      (if req.isRead then s.writeActive else true) := by
  rw [startService_eq]

/-- Field of `startServiceForRequest`: the served counters are untouched. -/
theorem startService_served (now : ℚ) (req : Request) (s : TableState) :
    (startServiceForRequest now req s).totalServed = s.totalServed ∧
    (startServiceForRequest now req s).totalReads = s.totalReads ∧
    (startServiceForRequest now req s).totalWrites = s.totalWrites ∧
    (startServiceForRequest now req s).totalBusyTime = s.totalBusyTime := by
  rw [startService_eq]; exact ⟨rfl, rfl, rfl, rfl⟩

/-- Field of `startServiceForRequest`: `lastStateChange` is stamped with
the admission time exactly when the table was idle. -/
theorem startService_lastStateChange (now : ℚ) (req : Request) (s : TableState) :
    (startServiceForRequest now req s).lastStateChange =
      (if 0 < s.activeReaders ∨ s.writeActive = true then s.lastStateChange
       else now) := by
  rw [startService_eq]

/-- The admission loop never touches the served counters nor the busy-time
accumulator (only `startServiceForRequest` effects occur). -/
theorem processQueueGo_counters (now : ℚ) (l : List Request) :
    ∀ s : TableState,
      (processQueueGo now l s).totalServed = s.totalServed ∧
      (processQueueGo now l s).totalReads = s.totalReads ∧
      (processQueueGo now l s).totalWrites = s.totalWrites ∧
      (processQueueGo now l s).totalBusyTime = s.totalBusyTime := by
  induction l with
  | nil => intro s; simp [processQueueGo]
  | cons r l' ih =>
    intro s
    by_cases hr : r.isRead
    · have h1 := ih (startServiceForRequest now r { s with requestQueue := l' })
      have h2 := startService_served now r { s with requestQueue := l' }
      simp only [processQueueGo, hr, if_true]
      exact ⟨h1.1.trans h2.1, h1.2.1.trans h2.2.1, h1.2.2.1.trans h2.2.2.1,
             h1.2.2.2.trans h2.2.2.2⟩
    · by_cases ha : s.activeReaders = 0
      · have h2 := startService_served now r { s with requestQueue := l' }
        simp only [processQueueGo, hr, Bool.false_eq_true, if_false]
        rw [if_pos ha]
        exact h2
      · simp [processQueueGo, hr, ha]

/-- Full characterization of the admission loop, entered with no write in
service and a nonnegative reader count, in terms of the maximal prefix of
READs at the head of the queue (`takeWhile`): the READ prefix is admitted
in order; then, if the remainder is empty the pass has emptied the queue;
if a WRITE heads the remainder it is admitted exactly when nothing was
active (empty READ prefix and no prior reader) and the pass stops right
after it; otherwise the pass stops at the WRITE with it and everything
behind it untouched. -/
theorem processQueueGo_char (now : ℚ) (l : List Request) :
    ∀ s : TableState, s.requestQueue = l → s.writeActive = false →
      0 ≤ s.activeReaders →
      ((l.dropWhile Request.isRead = [] →
          (processQueueGo now l s).requestQueue = [] ∧
          (processQueueGo now l s).serviceEvents =
            s.serviceEvents ++ (l.takeWhile Request.isRead).map (pendingOf now) ∧
          (processQueueGo now l s).writeActive = false ∧
          (processQueueGo now l s).activeReaders =
            s.activeReaders + ((l.takeWhile Request.isRead).length : Int)) ∧
       (∀ w rest', l.dropWhile Request.isRead = w :: rest' →
          l.takeWhile Request.isRead = [] → s.activeReaders = 0 →
          (processQueueGo now l s).requestQueue = rest' ∧
          (processQueueGo now l s).serviceEvents =
            s.serviceEvents ++ [pendingOf now w] ∧
          (processQueueGo now l s).writeActive = true ∧
          (processQueueGo now l s).activeReaders = 0) ∧
       (∀ w rest', l.dropWhile Request.isRead = w :: rest' →
          (l.takeWhile Request.isRead ≠ [] ∨ s.activeReaders ≠ 0) →
          (processQueueGo now l s).requestQueue = w :: rest' ∧
          (processQueueGo now l s).serviceEvents =
            s.serviceEvents ++ (l.takeWhile Request.isRead).map (pendingOf now) ∧
          (processQueueGo now l s).writeActive = false ∧
          (processQueueGo now l s).activeReaders =
            s.activeReaders + ((l.takeWhile Request.isRead).length : Int))) := by
  induction l with
  | nil =>
    intro s hq hw _
    refine ⟨fun _ => ?_, fun w rest' h => by simp at h, fun w rest' h => by simp at h⟩
    simpa [processQueueGo, hw] using hq
  | cons r l' ih =>
    intro s hq hw ha
    by_cases hr : r.isRead
    · -- a READ at the head: admit it and continue on the tail
      have hq1 : (startServiceForRequest now r { s with requestQueue := l' }).requestQueue
          = l' := startService_requestQueue now r _
      have hw1 : (startServiceForRequest now r { s with requestQueue := l' }).writeActive
          = false := by rw [startService_writeActive]; simp [hr]; exact hw
      have ha1 : (startServiceForRequest now r { s with requestQueue := l' }).activeReaders
          = s.activeReaders + 1 := by rw [startService_activeReaders]; simp [hr]
      have hev1 : (startServiceForRequest now r { s with requestQueue := l' }).serviceEvents
          = s.serviceEvents ++ [pendingOf now r] := startService_serviceEvents now r _
      have hih := ih (startServiceForRequest now r { s with requestQueue := l' })
        hq1 hw1 (by omega)
      simp only [processQueueGo, hr, if_true, List.dropWhile_cons, List.takeWhile_cons]
      refine ⟨fun hrest => ?_, fun w rest' hrest hreads => by simp at hreads,
              fun w rest' hrest _ => ?_⟩
      · rcases hih.1 hrest with ⟨h1, h2, h3, h4⟩
        refine ⟨h1, ?_, h3, ?_⟩
        · rw [h2, hev1]; simp
        · rw [h4, ha1]; simp only [List.length_cons]; push_cast; ring
      · rcases hih.2.2 w rest' hrest (Or.inr (by omega)) with ⟨h1, h2, h3, h4⟩
        refine ⟨h1, ?_, h3, ?_⟩
        · rw [h2, hev1]; simp
        · rw [h4, ha1]; simp only [List.length_cons]; push_cast; ring
    · -- a WRITE at the head: admitted iff no reader is active, then stop
      simp only [processQueueGo, List.dropWhile_cons, List.takeWhile_cons, hr,
                 Bool.false_eq_true, if_false]
      by_cases ha0 : s.activeReaders = 0
      · refine ⟨fun hrest => by simp at hrest,
                fun w rest' hrest _ _ => ?_, fun w rest' hrest hne => ?_⟩
        · simp only [List.cons.injEq] at hrest
          obtain ⟨rfl, rfl⟩ := hrest
          rw [if_pos ha0]
          exact ⟨startService_requestQueue now r _,
                 startService_serviceEvents now r _,
                 by rw [startService_writeActive]; simp [hr],
                 by rw [startService_activeReaders]; simp [hr, ha0]⟩
        · rcases hne with hne | hne
          · exact absurd rfl hne
          · exact absurd ha0 hne
      · refine ⟨fun hrest => by simp at hrest,
                fun w rest' _ _ h0 => absurd h0 ha0, fun w rest' hrest _ => ?_⟩
        simp only [List.cons.injEq] at hrest
        obtain ⟨rfl, rfl⟩ := hrest
        rw [if_neg ha0]
        exact ⟨hq, by simp, hw, by simp⟩

/-- Claim C1: the admission pass admits requests only from the queue head
in FCFS order with no overtaking.  While no write is in service, the
maximal prefix of READs at the head is dequeued and admitted in order in
a single pass; when the head then is a WRITE it is admitted only if
`activeReaders == 0` (empty READ prefix and no reader already active),
after which the pass stops; and when the head WRITE faces
`activeReaders > 0` the pass stops without dequeuing, leaving the WRITE
and every request behind it in the queue untouched — no request behind
the blocked WRITE is inspected or admitted, even a compatible READ. -/
theorem c1_admission_fcfs (now : ℚ) (s : TableState)
    (hw : s.writeActive = false) (ha : 0 ≤ s.activeReaders) :
    (s.requestQueue.dropWhile Request.isRead = [] →
       (processQueue now s).requestQueue = [] ∧
       (processQueue now s).serviceEvents =
         s.serviceEvents ++
           (s.requestQueue.takeWhile Request.isRead).map (pendingOf now) ∧
       (processQueue now s).writeActive = false) ∧
    (∀ w rest', s.requestQueue.dropWhile Request.isRead = w :: rest' →
       ((s.requestQueue.takeWhile Request.isRead = [] ∧ s.activeReaders = 0) →
          (processQueue now s).requestQueue = rest' ∧
          (processQueue now s).serviceEvents =
            s.serviceEvents ++ [pendingOf now w] ∧
          (processQueue now s).writeActive = true) ∧
       ((s.requestQueue.takeWhile Request.isRead ≠ [] ∨ s.activeReaders ≠ 0) →
          (processQueue now s).requestQueue = w :: rest' ∧
          (processQueue now s).serviceEvents =
            s.serviceEvents ++
              (s.requestQueue.takeWhile Request.isRead).map (pendingOf now) ∧
          (processQueue now s).writeActive = false)) := by
  have h := processQueueGo_char now s.requestQueue s rfl hw ha
  simp only [processQueue, hw, Bool.false_eq_true, if_false]
  refine ⟨fun h0 => ?_, fun w rest' h0 => ⟨fun hc => ?_, fun hc => ?_⟩⟩
  · rcases h.1 h0 with ⟨a, b, c, _⟩; exact ⟨a, b, c⟩
  · rcases h.2.1 w rest' h0 hc.1 hc.2 with ⟨a, b, c, _⟩; exact ⟨a, b, c⟩
  · rcases h.2.2 w rest' h0 hc with ⟨a, b, c, _⟩; exact ⟨a, b, c⟩

/-- Witness for C1 at a concrete state: queue `[READ, READ, WRITE, READ]`
with an idle table; the two head READs are admitted in order, the WRITE
blocks (its READ prefix is non-empty) and the READ behind it stays put. -/
theorem c1_admission_fcfs_witness :
    (processQueue 5 c1state).requestQueue = [reqW 3, reqR 4] ∧
    (processQueue 5 c1state).serviceEvents =
      [pendingOf 5 (reqR 1), pendingOf 5 (reqR 2)] ∧
    (processQueue 5 c1state).writeActive = false := by
  have h := ((c1_admission_fcfs 5 c1state rfl (by decide)).2 (reqW 3) [reqR 4]
      (by decide)).2 (Or.inl (by decide))
  simpa [c1state, initTable] using h

/-- The admission loop leaves no idle table facing a non-empty queue. -/
theorem processQueueGo_wc (now : ℚ) (l : List Request) :
    ∀ s : TableState, s.requestQueue = l → s.writeActive = false →
      workConserving (processQueueGo now l s) := by
  induction l with
  | nil => intro s hq hw; simp [processQueueGo, workConserving, hq]
  | cons r l' ih =>
    intro s hq hw
    by_cases hr : r.isRead
    · have hrec := ih (startServiceForRequest now r { s with requestQueue := l' })
        (startService_requestQueue now r _)
        (by rw [startService_writeActive]; simp [hr]; exact hw)
      simp only [processQueueGo, hr, if_true]
      exact hrec
    · by_cases ha0 : s.activeReaders = 0
      · simp only [processQueueGo, hr, Bool.false_eq_true, if_false]
        rw [if_pos ha0]
        intro hcon
        have hcw := hcon.2.2
        rw [startService_writeActive] at hcw
        simp [hr] at hcw
      · simp only [processQueueGo, hr, Bool.false_eq_true, if_false]
        rw [if_neg ha0]
        intro hcon
        exact ha0 hcon.2.1

/-- The admission pass always leaves a work-conserving table. -/
theorem processQueue_wc (now : ℚ) (s : TableState) :
    workConserving (processQueue now s) := by
  by_cases hw : s.writeActive = true
  · simp only [processQueue, hw, if_true]
    intro hcon
    exact absurd hcon.2.2 (by simp [hw])
  · have hw' : s.writeActive = false := by simpa using hw
    simp only [processQueue, hw', Bool.false_eq_true, if_false]
    exact processQueueGo_wc now s.requestQueue s rfl hw'

/-- Claim C3: the table is work-conserving — after processing any arrival
or (well-linked) completion event the queue is never non-empty while
`activeReaders == 0` and `writeActive == false`, because both handlers
re-run the admission pass to exhaustion. -/
theorem c3_work_conserving (now : ℚ) (req : Request) (s : TableState) :
    workConserving (handleArrival now req s) ∧
    (∀ i, i < s.serviceEvents.length →
      workConserving (handleCompletion now i s).1) := by
  constructor
  · simp only [handleArrival]
    exact processQueue_wc now _
  · intro i hi
    have he : s.serviceEvents[i]? = some s.serviceEvents[i] :=
      List.getElem?_eq_getElem hi
    simp only [handleCompletion, he]
    exact processQueue_wc now _

/-- Witness for C3 at concrete events: one arrival on the fresh table,
and the completion of the single in-service READ of `c8state`. -/
theorem c3_work_conserving_witness :
    workConserving (handleArrival 0 (reqR 0) initTable) ∧
    workConserving (handleCompletion 1 0 c8state).1 := by
  refine ⟨(c3_work_conserving 0 (reqR 0) initTable).1, ?_⟩
  exact (c3_work_conserving 1 (reqR 0) c8state).2 0 (by decide)

/-- Erasing a position whose element satisfies `p` drops exactly one
`p`-element from the filtered length. -/
theorem length_filter_eraseIdx_pos {α : Type} (p : α → Bool) :
    ∀ (l : List α) (i : Nat) (h : i < l.length), p (l.get ⟨i, h⟩) = true →
      ((l.eraseIdx i).filter p).length + 1 = (l.filter p).length := by
  intro l
  induction l with
  | nil => intro i h; simp at h
  | cons x xs ih =>
    intro i h hp
    cases i with
    | zero =>
      simp only [List.get] at hp
      simp [List.eraseIdx_cons_zero, List.filter_cons, hp]
    | succ j =>
      have hj : j < xs.length := by simpa using h
      have hp2 : p (xs.get ⟨j, hj⟩) = true := by simpa using hp
      have hrec := ih j hj hp2
      simp only [List.eraseIdx_cons_succ, List.filter_cons]
      cases hx : p x <;> simp [hx] <;> omega

/-- Erasing a position whose element fails `p` leaves the filtered length
unchanged. -/
theorem length_filter_eraseIdx_neg {α : Type} (p : α → Bool) :
    ∀ (l : List α) (i : Nat) (h : i < l.length), p (l.get ⟨i, h⟩) = false →
      ((l.eraseIdx i).filter p).length = (l.filter p).length := by
  intro l
  induction l with
  | nil => intro i h; simp at h
  | cons x xs ih =>
    intro i h hp
    cases i with
    | zero =>
      simp only [List.get] at hp
      simp [List.eraseIdx_cons_zero, List.filter_cons, hp]
    | succ j =>
      have hj : j < xs.length := by simpa using h
      have hp2 : p (xs.get ⟨j, hj⟩) = false := by simpa using hp
      have hrec := ih j hj hp2
      simp only [List.eraseIdx_cons_succ, List.filter_cons]
      cases hx : p x <;> simp [hx] <;> omega

/-- Starting service under the admission-loop guards (no writer; for a
WRITE additionally no reader) preserves the table invariant. -/
theorem startService_InvAt (now : ℚ) (req : Request) (s : TableState)
    (hw : s.writeActive = false) (hok : req.isRead = true ∨ s.activeReaders = 0)
    (hinv : InvAt s now) : InvAt (startServiceForRequest now req s) now := by
  obtain ⟨h1, h2, h3, h4, h5, h6⟩ := hinv
  have hcr : countReads (s.serviceEvents ++ [pendingOf now req])
      = countReads s.serviceEvents + (if req.isRead then 1 else 0) := by
    by_cases hr : req.isRead = true <;>
      simp [countReads, List.filter_append, pendingOf, hr]
  have hcw : countWrites (s.serviceEvents ++ [pendingOf now req])
      = countWrites s.serviceEvents + (if req.isRead then 0 else 1) := by
    by_cases hr : req.isRead = true <;>
      simp [countWrites, List.filter_append, pendingOf, hr]
  rw [startService_eq]
  by_cases hr : req.isRead = true
  · refine ⟨?_, ?_, ?_, h4, ?_, ?_⟩
    · show (if req.isRead then s.activeReaders + 1 else s.activeReaders) = _
      rw [hcr]
      simp only [hr, if_true]
      omega
    · show countWrites _ = _
      rw [hcw]
      simp only [hr, if_true]
      simpa [hw] using h2
    · intro hwt
      exfalso
      revert hwt
      show ¬((if req.isRead then s.writeActive else true) = true)
      simp [hr, hw]
    · show (if 0 < s.activeReaders ∨ s.writeActive = true then s.lastStateChange
            else now) ≤ now
      by_cases hb : 0 < s.activeReaders ∨ s.writeActive = true
      · rw [if_pos hb]; exact h5
      · rw [if_neg hb]
    · show s.totalBusyTime +
        (if 0 < (if req.isRead then s.activeReaders + 1 else s.activeReaders) ∨
            (if req.isRead then s.writeActive else true) = true
         then now - (if 0 < s.activeReaders ∨ s.writeActive = true
                     then s.lastStateChange else now)
         else 0) ≤ now
      have hap : 0 ≤ s.activeReaders := by rw [h1]; positivity
      rw [if_pos (by simp only [hr, if_true]; left; omega)]
      by_cases hb : 0 < s.activeReaders ∨ s.writeActive = true
      · rw [if_pos hb]
        rw [if_pos hb] at h6
        exact h6
      · rw [if_neg hb]
        rw [if_neg hb] at h6
        linarith
  · rcases hok with hok | ha0
    · exact absurd hok hr
    · refine ⟨?_, ?_, ?_, h4, ?_, ?_⟩
      · show (if req.isRead then s.activeReaders + 1 else s.activeReaders) = _
        rw [hcr]
        simp only [hr, Bool.false_eq_true, if_false]
        omega
      · show countWrites _ = _
        rw [hcw]
        simp only [hr, Bool.false_eq_true, if_false]
        have : countWrites s.serviceEvents = 0 := by simpa [hw] using h2
        simp [this]
      · intro _
        show (if req.isRead then s.activeReaders + 1 else s.activeReaders) = 0
        simp only [hr, Bool.false_eq_true, if_false]
        exact ha0
      · show (if 0 < s.activeReaders ∨ s.writeActive = true then s.lastStateChange
              else now) ≤ now
        by_cases hb : 0 < s.activeReaders ∨ s.writeActive = true
        · rw [if_pos hb]; exact h5
        · rw [if_neg hb]
      · show s.totalBusyTime +
          (if 0 < (if req.isRead then s.activeReaders + 1 else s.activeReaders) ∨
              (if req.isRead then s.writeActive else true) = true
           then now - (if 0 < s.activeReaders ∨ s.writeActive = true
                       then s.lastStateChange else now)
           else 0) ≤ now
        have hb : ¬(0 < s.activeReaders ∨ s.writeActive = true) := by
          simp [ha0, hw]
        rw [if_pos (by simp only [hr, Bool.false_eq_true, if_false]; right; trivial)]
        rw [if_neg hb]
        rw [if_neg hb] at h6
        linarith

/-- The invariant is stable under advancing the clock (no event fires in
between). -/
theorem InvAt_mono (s : TableState) (t1 t2 : ℚ) (h12 : t1 ≤ t2)
    (hinv : InvAt s t1) : InvAt s t2 := by
  obtain ⟨h1, h2, h3, h4, h5, h6⟩ := hinv
  refine ⟨h1, h2, h3, h4, le_trans h5 h12, ?_⟩
  by_cases hb : 0 < s.activeReaders ∨ s.writeActive = true
  · rw [if_pos hb]
    rw [if_pos hb] at h6
    linarith
  · rw [if_neg hb]
    rw [if_neg hb] at h6
    linarith

/-- The admission loop preserves the table invariant. -/
theorem processQueueGo_InvAt (now : ℚ) (l : List Request) :
    ∀ s : TableState, s.requestQueue = l → s.writeActive = false →
      InvAt s now → InvAt (processQueueGo now l s) now := by
  induction l with
  | nil => intro s _ _ hinv; simpa [processQueueGo] using hinv
  | cons r l' ih =>
    intro s hq hw hinv
    have hinv' : InvAt { s with requestQueue := l' } now := hinv
    by_cases hr : r.isRead = true
    · simp only [processQueueGo, hr, if_true]
      exact ih _ (startService_requestQueue now r _)
        (by rw [startService_writeActive]; simp [hr]; exact hw)
        (startService_InvAt now r _ hw (Or.inl hr) hinv')
    · simp only [processQueueGo, hr, Bool.false_eq_true, if_false]
      by_cases ha0 : s.activeReaders = 0
      · rw [if_pos ha0]
        exact startService_InvAt now r _ hw (Or.inr ha0) hinv'
      · rw [if_neg ha0]
        exact hinv

/-- The admission pass preserves the table invariant. -/
theorem processQueue_InvAt (now : ℚ) (s : TableState)
    (hinv : InvAt s now) : InvAt (processQueue now s) now := by
  by_cases hw : s.writeActive = true
  · simpa [processQueue, hw] using hinv
  · have hw2 : s.writeActive = false := by simpa using hw
    simp only [processQueue, hw2, Bool.false_eq_true, if_false]
    exact processQueueGo_InvAt now s.requestQueue s rfl hw2 hinv

/-- An arrival preserves the table invariant. -/
theorem handleArrival_InvAt (now : ℚ) (req : Request) (s : TableState)
    (hinv : InvAt s now) : InvAt (handleArrival now req s) now := by
  simp only [handleArrival]
  exact processQueue_InvAt now _ hinv

/-- Firing a recorded completion preserves the table invariant. -/
theorem handleCompletion_InvAt (now : ℚ) (i : Nat) (s : TableState)
    (hi : i < s.serviceEvents.length) (hinv : InvAt s now) :
    InvAt (handleCompletion now i s).1 now := by
  obtain ⟨h1, h2, h3, h4, h5, h6⟩ := hinv
  have he : s.serviceEvents[i]? = some (s.serviceEvents.get ⟨i, hi⟩) := by
    rw [List.getElem?_eq_getElem hi]
    simp
  simp only [handleCompletion, he]
  apply processQueue_InvAt
  by_cases hr : (s.serviceEvents.get ⟨i, hi⟩).req.isRead = true
  · -- a READ completes
    have hpos := length_filter_eraseIdx_pos (fun ev => ev.req.isRead)
      s.serviceEvents i hi hr
    have hneg := length_filter_eraseIdx_neg (fun ev => !ev.req.isRead)
      s.serviceEvents i hi (by simpa using hr)
    have hcr1 : 1 ≤ countReads s.serviceEvents := by
      rw [countReads, ← hpos]; omega
    have ha1 : 1 ≤ s.activeReaders := by
      rw [h1]; exact_mod_cast hcr1
    have hwf : s.writeActive = false := by
      cases hsw : s.writeActive
      · rfl
      · exact absurd (h3 hsw) (by omega)
    simp only [hr, if_true]
    rw [if_neg (show ¬(s.activeReaders - 1 < 0) by omega)]
    split
    · rename_i hni
      refine ⟨?_, ?_, ?_, ?_, ?_, ?_⟩
      · show s.activeReaders - 1 = (countReads (s.serviceEvents.eraseIdx i) : Int)
        rw [h1]
        have : countReads (s.serviceEvents.eraseIdx i) + 1
            = countReads s.serviceEvents := hpos
        omega
      · show countWrites (s.serviceEvents.eraseIdx i) = _
        rw [countWrites, hneg, ← countWrites, h2, hwf]
      · intro hwt
        exact absurd hwt (by rw [hwf]; simp)
      · show 0 ≤ s.totalBusyTime + (now - s.lastStateChange)
        linarith
      · exact le_refl now
      · show s.totalBusyTime + (now - s.lastStateChange) +
          (if 0 < s.activeReaders - 1 ∨ s.writeActive = true then now - now
           else 0) ≤ now
        have hb6 : s.totalBusyTime + (now - s.lastStateChange) ≤ now := by
          rw [if_pos (Or.inl (by omega))] at h6
          exact h6
        by_cases hb : 0 < s.activeReaders - 1 ∨ s.writeActive = true
        · rw [if_pos hb]; linarith
        · rw [if_neg hb]; linarith
    · rename_i hni
      have hne : ¬(s.activeReaders - 1 = 0) := fun hz => hni ⟨hz, hwf⟩
      refine ⟨?_, ?_, ?_, h4, h5, ?_⟩
      · show s.activeReaders - 1 = (countReads (s.serviceEvents.eraseIdx i) : Int)
        rw [h1]
        have : countReads (s.serviceEvents.eraseIdx i) + 1
            = countReads s.serviceEvents := hpos
        omega
      · show countWrites (s.serviceEvents.eraseIdx i) = _
        rw [countWrites, hneg, ← countWrites, h2, hwf]
      · intro hwt
        exact absurd hwt (by rw [hwf]; simp)
      · show s.totalBusyTime +
          (if 0 < s.activeReaders - 1 ∨ s.writeActive = true
           then now - s.lastStateChange else 0) ≤ now
        have hb6 : s.totalBusyTime + (now - s.lastStateChange) ≤ now := by
          rw [if_pos (Or.inl (by omega))] at h6
          exact h6
        rw [if_pos (Or.inl (by omega))]
        exact hb6
  · -- a WRITE completes
    have hpos := length_filter_eraseIdx_pos (fun ev => !ev.req.isRead)
      s.serviceEvents i hi (by simpa using hr)
    have hneg := length_filter_eraseIdx_neg (fun ev => ev.req.isRead)
      s.serviceEvents i hi (by simpa using hr)
    have hcw1 : 1 ≤ countWrites s.serviceEvents := by
      rw [countWrites, ← hpos]; omega
    have hwt : s.writeActive = true := by
      cases hsw : s.writeActive
      · rw [hsw] at h2; simp at h2; omega
      · rfl
    have ha0 : s.activeReaders = 0 := h3 hwt
    have hcr0 : countReads s.serviceEvents = 0 := by
      have := h1; rw [ha0] at this; omega
    simp only [hr, Bool.false_eq_true, if_false]
    split
    · rename_i hni
      refine ⟨?_, ?_, ?_, ?_, ?_, ?_⟩
      · show s.activeReaders = (countReads (s.serviceEvents.eraseIdx i) : Int)
        rw [ha0, countReads, hneg, ← countReads, hcr0]
        rfl
      · show countWrites (s.serviceEvents.eraseIdx i) = _
        have : countWrites (s.serviceEvents.eraseIdx i) + 1
            = countWrites s.serviceEvents := hpos
        rw [hwt] at h2
        simp only [if_true] at h2
        simp
        omega
      · intro hcon
        exact absurd hcon (by simp)
      · show 0 ≤ s.totalBusyTime + (now - s.lastStateChange)
        linarith
      · exact le_refl now
      · show s.totalBusyTime + (now - s.lastStateChange) +
          (if 0 < s.activeReaders ∨ false = true then now - now
           else 0) ≤ now
        have hb6 : s.totalBusyTime + (now - s.lastStateChange) ≤ now := by
          rw [if_pos (Or.inr hwt)] at h6
          exact h6
        rw [if_neg (by simp [ha0])]
        linarith
    · rename_i hni
      exact absurd ⟨ha0, trivial⟩ hni

/-- Every reachable table state satisfies the invariant at its clock. -/
theorem reachable_InvAt (σ : Sim) (h : Reachable σ) : InvAt σ.table σ.now := by
  induction h with
  | init =>
    refine ⟨?_, ?_, ?_, ?_, ?_, ?_⟩ <;>
      simp [initTable, countReads, countWrites]
  | step hr hstep ih =>
    cases hstep with
    | arrival t req hle =>
      exact handleArrival_InvAt t req _ (InvAt_mono _ _ t hle ih)
    | completion t i hlt hle hsched =>
      exact handleCompletion_InvAt t i _ hlt (InvAt_mono _ _ t hle ih)

/-- The single READ arrival leading to `simA` is a valid step. -/
theorem reachable_simA : Reachable simA :=
  Reachable.step Reachable.init (Step.arrival ⟨initTable, 0⟩ 0 (reqR 0) le_rfl)

/-- Completing that READ at its scheduled time 1 reaches `simB`. -/
theorem reachable_simB : Reachable simB :=
  Reachable.step reachable_simA
    (Step.completion simA 1 0 (by decide) (by decide)
      (by simp [simA, handleArrival, processQueue, processQueueGo,
            startService_eq, initTable, reqR, Request.isRead, pendingOf]))

/-- Claim C2: in every reachable table state (hence after processing any
arrival or completion event) mutual exclusion holds: an active writer
implies zero active readers, and active readers imply no active writer. -/
theorem c2_mutual_exclusion (σ : Sim) (h : Reachable σ) :
    (σ.table.writeActive = true → σ.table.activeReaders = 0) ∧
    (0 < σ.table.activeReaders → σ.table.writeActive = false) := by
  have hinv := reachable_InvAt σ h
  refine ⟨hinv.2.2.1, fun ha => ?_⟩
  cases hsw : σ.table.writeActive
  · rfl
  · have := hinv.2.2.1 hsw
    omega

/-- Witness for C2 at the concrete reachable state `simA` (one READ in
service). -/
theorem c2_mutual_exclusion_witness :
    (simA.table.writeActive = true → simA.table.activeReaders = 0) ∧
    (0 < simA.table.activeReaders → simA.table.writeActive = false) :=
  c2_mutual_exclusion simA reachable_simA

/-- Claim C7: for every reachable state with positive elapsed duration the
utilization reported by `Table::finish` is defined and lies in `[0, 1]`,
where the busy time includes the still-open busy interval when the table
is busy at finalize time. -/
theorem c7_utilization_bound (σ : Sim) (h : Reachable σ) (hpos : 0 < σ.now) :
    ∃ u, (tableFinish σ.now σ.table).utilization = some u ∧ 0 ≤ u ∧ u ≤ 1 := by
  obtain ⟨h1, h2, h3, h4, h5, h6⟩ := reachable_InvAt σ h
  refine ⟨(σ.table.totalBusyTime +
      (if 0 < σ.table.activeReaders ∨ σ.table.writeActive = true
       then σ.now - σ.table.lastStateChange else 0)) / σ.now, ?_, ?_, ?_⟩
  · simp [tableFinish, hpos]
  · apply div_nonneg _ (le_of_lt hpos)
    by_cases hb : 0 < σ.table.activeReaders ∨ σ.table.writeActive = true
    · rw [if_pos hb]; linarith
    · rw [if_neg hb]; linarith
  · rw [div_le_one hpos]
    exact h6

/-- Witness for C7 at the concrete reachable state `simB` (duration 1). -/
theorem c7_utilization_bound_witness :
    ∃ u, (tableFinish simB.now simB.table).utilization = some u ∧
      0 ≤ u ∧ u ≤ 1 :=
  c7_utilization_bound simB reachable_simB (by decide)

/-- The admission pass never touches the served counters nor the busy-time
accumulator. -/
theorem processQueue_counters (now : ℚ) (s : TableState) :
    (processQueue now s).totalServed = s.totalServed ∧
    (processQueue now s).totalReads = s.totalReads ∧
    (processQueue now s).totalWrites = s.totalWrites ∧
    (processQueue now s).totalBusyTime = s.totalBusyTime := by
  by_cases hw : s.writeActive = true
  · simp [processQueue, hw]
  · have hw2 : s.writeActive = false := by simpa using hw
    simp only [processQueue, hw2, Bool.false_eq_true, if_false]
    exact processQueueGo_counters now s.requestQueue s

/-- The admission loop moves requests one-for-one from the queue into the
recorded completion events. -/
theorem processQueueGo_mass (now : ℚ) (l : List Request) :
    ∀ s : TableState, s.requestQueue = l →
      (processQueueGo now l s).requestQueue.length +
        (processQueueGo now l s).serviceEvents.length
      = s.requestQueue.length + s.serviceEvents.length := by
  induction l with
  | nil => intro s _; rfl
  | cons r l' ih =>
    intro s hq
    by_cases hr : r.isRead = true
    · simp only [processQueueGo, hr, if_true]
      rw [ih _ (startService_requestQueue now r _)]
      simp only [startService_requestQueue, startService_serviceEvents,
        List.length_append, List.length_cons, List.length_nil, hq]
      omega
    · simp only [processQueueGo, hr, Bool.false_eq_true, if_false]
      by_cases ha0 : s.activeReaders = 0
      · rw [if_pos ha0]
        simp only [startService_requestQueue, startService_serviceEvents,
          List.length_append, List.length_cons, List.length_nil, hq]
        omega
      · rw [if_neg ha0]

/-- The admission pass moves requests one-for-one from the queue into the
recorded completion events. -/
theorem processQueue_mass (now : ℚ) (s : TableState) :
    (processQueue now s).requestQueue.length +
      (processQueue now s).serviceEvents.length
    = s.requestQueue.length + s.serviceEvents.length := by
  by_cases hw : s.writeActive = true
  · simp [processQueue, hw]
  · have hw2 : s.writeActive = false := by simpa using hw
    simp only [processQueue, hw2, Bool.false_eq_true, if_false]
    exact processQueueGo_mass now s.requestQueue s rfl

/-- The admission pass preserves served-plus-outstanding mass. -/
theorem processQueue_massAll (now : ℚ) (s : TableState) :
    (processQueue now s).totalServed + tableOutstanding (processQueue now s)
      = s.totalServed + tableOutstanding s := by
  have h1 := (processQueue_counters now s).1
  have h2 := processQueue_mass now s
  unfold tableOutstanding
  omega

/-- An arrival adds exactly one to served-plus-outstanding mass. -/
theorem handleArrival_mass (now : ℚ) (req : Request) (s : TableState) :
    (handleArrival now req s).totalServed +
      tableOutstanding (handleArrival now req s)
    = s.totalServed + tableOutstanding s + 1 := by
  simp only [handleArrival]
  rw [processQueue_massAll]
  unfold tableOutstanding
  simp only [List.length_append, List.length_cons, List.length_nil]
  omega

/-- Firing a recorded completion preserves served-plus-outstanding mass
(one event leaves service, one completion is counted as served). -/
theorem handleCompletion_mass (now : ℚ) (i : Nat) (s : TableState)
    (hi : i < s.serviceEvents.length) :
    (handleCompletion now i s).1.totalServed +
      tableOutstanding (handleCompletion now i s).1
    = s.totalServed + tableOutstanding s := by
  have he : s.serviceEvents[i]? = some (s.serviceEvents.get ⟨i, hi⟩) := by
    rw [List.getElem?_eq_getElem hi]
    simp
  simp only [handleCompletion, he]
  rw [processQueue_massAll]
  unfold tableOutstanding
  have hlen : (s.serviceEvents.eraseIdx i).length = s.serviceEvents.length - 1 := by
    simp [List.length_eraseIdx, hi]
  split_ifs <;> simp [hlen] <;> omega

/-- `User::processTableResponse` never touches the access counters. -/
theorem processTableResponse_totalAccesses (now : ℚ) (r : Response)
    (u u2 : UserState) (w : ℚ)
    (h : processTableResponse now r u = some (u2, w)) :
    u2.totalAccesses = u.totalAccesses := by
  cases harr : r.arrivalTime with
  | none => simp [processTableResponse, harr] at h
  | some a =>
    simp only [processTableResponse, harr, Option.some.injEq, Prod.mk.injEq] at h
    rw [← h.1]

/-- The served-split accounting survives the admission pass. -/
theorem processQueue_served_split (now : ℚ) (s : TableState)
    (h : s.totalServed = s.totalReads + s.totalWrites) :
    (processQueue now s).totalServed =
      (processQueue now s).totalReads + (processQueue now s).totalWrites := by
  obtain ⟨h1, h2, h3, _⟩ := processQueue_counters now s
  rw [h1, h2, h3]
  exact h

/-- In every reachable table state the served counter splits into reads
plus writes. -/
theorem reachable_served_split (σ : Sim) (h : Reachable σ) :
    σ.table.totalServed = σ.table.totalReads + σ.table.totalWrites := by
  induction h with
  | init => rfl
  | step hr hstep ih =>
    cases hstep with
    | arrival t req hle =>
      show (handleArrival t req _).totalServed = _
      simp only [handleArrival]
      exact processQueue_served_split t _ ih
    | completion t i hlt hle hsched =>
      rename_i σ0
      have he : σ0.table.serviceEvents[i]? =
          some (σ0.table.serviceEvents.get ⟨i, hlt⟩) := by
        rw [List.getElem?_eq_getElem hlt]
        simp
      show ((handleCompletion t i _).1).totalServed = _
      simp only [handleCompletion, he]
      apply processQueue_served_split
      by_cases hrd : (σ0.table.serviceEvents.get ⟨i, hlt⟩).req.isRead = true <;>
        simp only [hrd, if_true, Bool.false_eq_true, if_false] <;>
        split_ifs <;> simp <;> omega

/-- In every reachable composed-system state the user's issued-access
count equals the table's served count plus its outstanding requests
(queued or in service). -/
theorem sys_conservation (uid : Int) (st : ℚ) (σ : SysState)
    (h : SysReachable uid st σ) :
    σ.user.totalAccesses = σ.table.totalServed + tableOutstanding σ.table := by
  induction h with
  | init => rfl
  | step hr hstep ih =>
    cases hstep with
    | access t isRd hle =>
      rename_i σ0
      have hm := handleArrival_mass t (mkRequest σ0.user isRd t) σ0.table
      show (userAccessFire isRd σ0.user).totalAccesses =
        (handleArrival t (mkRequest σ0.user isRd t) σ0.table).totalServed +
          tableOutstanding (handleArrival t (mkRequest σ0.user isRd t) σ0.table)
      have hua : (userAccessFire isRd σ0.user).totalAccesses =
          σ0.user.totalAccesses + 1 := rfl
      omega
    | completionDelivered t i tb r u2 w hlt hle hsched hc hu =>
      rename_i σ0
      have htb : (handleCompletion t i σ0.table).1 = tb := by rw [hc]
      have hm := handleCompletion_mass t i σ0.table hlt
      rw [htb] at hm
      have hu2 := processTableResponse_totalAccesses t r σ0.user u2 w hu
      show u2.totalAccesses = tb.totalServed + tableOutstanding tb
      omega
    | completionSilent t i tb hlt hle hsched hc =>
      rename_i σ0
      have htb : (handleCompletion t i σ0.table).1 = tb := by rw [hc]
      have hm := handleCompletion_mass t i σ0.table hlt
      rw [htb] at hm
      show σ0.user.totalAccesses = tb.totalServed + tableOutstanding tb
      omega

/-- Claim C4 (counterexample as stated): after the reachable run in which
one request completed by time 1, finalizing at simulated end time 3
reports throughput 1 — the raw served count — which differs from
`totalServed / simDuration = 1/3`. -/
theorem c4_throughput_counterexample :
    Reachable simB ∧
    (tableFinish 3 simB.table).throughput ≠
      (simB.table.totalServed : ℚ) / 3 := by
  refine ⟨reachable_simB, ?_⟩
  have h1 : simB.table.totalServed = 1 := by decide
  show (simB.table.totalServed : ℚ) ≠ (simB.table.totalServed : ℚ) / 3
  rw [h1]
  norm_num

/-- Claim C4 (amended): the throughput emitted at `Table::finish` is the
raw `totalServed` count, not the count divided by the simulated
duration. -/
theorem c4_throughput_raw_count (tEnd : ℚ) (s : TableState) :
    (tableFinish tEnd s).throughput = (s.totalServed : ℚ) := rfl

/-- Claim C5 (code evidence at the failing input): at a zero-duration run
the guarded statistics behave (the user's mean wait is the defined 0 with
zero accesses; the table's utilization is skipped rather than faulting),
but `User::finish` computes `totalAccesses / simTime()` with no guard, so
at `simDuration == 0` the division has a zero divisor and produces an
IEEE non-finite value (modelled `none`) instead of the defined value 0
that the policy requires. -/
theorem c5_zero_duration_division_fault :
    (userFinish 0 (initUser 0 1)).accessesPerSecond = none ∧
    (userFinish 0 (initUser 0 1)).averageWaitTime = 0 ∧
    (tableFinish 0 initTable).utilization = none := by
  refine ⟨?_, ?_, ?_⟩ <;> simp [userFinish, tableFinish, ddiv, initUser, initTable]

/-- Claim C6 (counterexample to the second conjunct as stated): in the
reachable composed state right after a single access at time 0 the user
has counted one access while the table has served nothing (the request is
still in service), so the access sum differs from the served sum over
this whole run. -/
theorem c6_conservation_counterexample :
    SysReachable 0 1 c6SysEx ∧
    c6SysEx.user.totalAccesses = 1 ∧ c6SysEx.table.totalServed = 0 := by
  refine ⟨SysReachable.step SysReachable.init
    (SysStep.access (initSys 0 1) 0 true le_rfl), rfl, ?_⟩
  decide

/-- Claim C6 (amended): for every reachable table state
`totalServed = totalReads + totalWrites`; and in the composed
one-user/one-table system the user's access count equals the table's
served count plus its outstanding requests (queued or in service) — the
plain sums agree exactly when nothing is outstanding at run end. -/
theorem c6_conservation_amended :
    (∀ σ : Sim, Reachable σ →
       σ.table.totalServed = σ.table.totalReads + σ.table.totalWrites) ∧
    (∀ (uid : Int) (st : ℚ) (σ : SysState), SysReachable uid st σ →
       σ.user.totalAccesses = σ.table.totalServed + tableOutstanding σ.table) :=
  ⟨reachable_served_split, sys_conservation⟩

/-- Witness for the amended C6 at concrete reachable states. -/
theorem c6_conservation_amended_witness :
    simB.table.totalServed = simB.table.totalReads + simB.table.totalWrites ∧
    c6SysEx.user.totalAccesses =
      c6SysEx.table.totalServed + tableOutstanding c6SysEx.table :=
  ⟨c6_conservation_amended.1 simB reachable_simB,
   c6_conservation_amended.2 0 1 c6SysEx
     (SysReachable.step SysReachable.init
       (SysStep.access (initSys 0 1) 0 true le_rfl))⟩

/-- Claim C8: completing a service dispatches a response that preserves
the request's read/write kind and its original `arrivalTime` (when the
request carries a `userId ≥ 0`), and the user's computed round-trip wait
equals the completion time minus that original arrival time. -/
theorem c8_response_preserves (now : ℚ) (i : Nat) (s : TableState)
    (e : Pending) (a : ℚ) (u0 : Int)
    (he : s.serviceEvents[i]? = some e) (harr : e.req.arrivalTime = some a)
    (huid : e.req.userId = some u0) (hge : 0 ≤ u0) :
    ∃ r : Response, (handleCompletion now i s).2 = some r ∧
      r.kind = e.req.kind ∧ r.arrivalTime = some a ∧
      ∀ u : UserState, ∃ u2 : UserState,
        processTableResponse now r u = some (u2, now - a) ∧
        u2.totalWaitTime = u.totalWaitTime + (now - a) := by
  refine ⟨{ kind := e.req.kind, arrivalTime := e.req.arrivalTime },
    ?_, rfl, ?_, ?_⟩
  · simp only [handleCompletion, he]
    simp [huid, hge]
  · rw [harr]
  · intro u
    refine ⟨{ u with totalWaitTime := u.totalWaitTime + (now - a) }, ?_, rfl⟩
    simp [processTableResponse, harr]

/-- Witness for C8: the READ in service at `c8state` completes at time 1
and carries kind 0 and arrival time 0 back to the user. -/
theorem c8_response_preserves_witness :
    ∃ r : Response, (handleCompletion 1 0 c8state).2 = some r ∧
      r.kind = (pendingOf 0 (reqR 0)).req.kind ∧ r.arrivalTime = some 0 ∧
      ∀ u : UserState, ∃ u2 : UserState,
        processTableResponse 1 r u = some (u2, 1 - 0) ∧
        u2.totalWaitTime = u.totalWaitTime + (1 - 0) :=
  c8_response_preserves 1 0 c8state (pendingOf 0 (reqR 0)) 0 0
    rfl rfl rfl (by decide)

/-- Claim C9: for a nonnegative lognormal draw `x` and at least one
table, the selected index is exactly `floor(x mod numTables)` (the clamps
never fire for such draws) and always lies in `[0, numTables - 1]`. -/
theorem c9_lognormal_table_index (x : ℚ) (n : Int) (hx : 0 ≤ x)
    (hn : 1 ≤ n) :
    selectTableLognormal x n = ⌊x - (n : ℚ) * (⌊x / (n : ℚ)⌋ : ℚ)⌋ ∧
    0 ≤ selectTableLognormal x n ∧ selectTableLognormal x n < n := by
  have hnz : (0:ℚ) < (n:ℚ) := by
    have h0 : (0:Int) < n := by omega
    exact_mod_cast h0
  have hq0 : 0 ≤ x / (n:ℚ) := div_nonneg hx hnz.le
  have htr : ratTrunc (x / (n:ℚ)) = ⌊x / (n:ℚ)⌋ := by
    unfold ratTrunc
    rw [if_pos hq0]
  have hdn : (x / (n:ℚ)) * (n:ℚ) = x := by field_simp
  have hr0 : 0 ≤ fmodQ x (n:ℚ) := by
    unfold fmodQ
    rw [htr]
    have h1 : ((⌊x / (n:ℚ)⌋ : ℚ)) ≤ x / (n:ℚ) := Int.floor_le _
    have h2 : ((⌊x / (n:ℚ)⌋ : ℚ)) * (n:ℚ) ≤ (x / (n:ℚ)) * (n:ℚ) :=
      mul_le_mul_of_nonneg_right h1 hnz.le
    linarith [hdn]
  have hrlt : fmodQ x (n:ℚ) < (n:ℚ) := by
    unfold fmodQ
    rw [htr]
    have h1 : x / (n:ℚ) < (⌊x / (n:ℚ)⌋ : ℚ) + 1 := Int.lt_floor_add_one _
    have h2 : (x / (n:ℚ)) * (n:ℚ) < ((⌊x / (n:ℚ)⌋ : ℚ) + 1) * (n:ℚ) :=
      mul_lt_mul_of_pos_right h1 hnz
    have h3 : ((⌊x / (n:ℚ)⌋ : ℚ) + 1) * (n:ℚ)
        = (⌊x / (n:ℚ)⌋ : ℚ) * (n:ℚ) + (n:ℚ) := by ring
    linarith [hdn]
  have htid : ratTrunc (fmodQ x (n:ℚ)) = ⌊fmodQ x (n:ℚ)⌋ := by
    unfold ratTrunc
    rw [if_pos hr0]
  have hf0 : 0 ≤ ⌊fmodQ x (n:ℚ)⌋ := Int.floor_nonneg.mpr hr0
  have hfn : ⌊fmodQ x (n:ℚ)⌋ < n := Int.floor_lt.mpr hrlt
  simp only [selectTableLognormal]
  rw [htid]
  rw [if_neg (show ¬(⌊fmodQ x (n:ℚ)⌋ < 0) by omega)]
  rw [if_neg (show ¬(n ≤ ⌊fmodQ x (n:ℚ)⌋) by omega)]
  refine ⟨?_, hf0, hfn⟩
  unfold fmodQ
  rw [htr]
  congr 1
  ring

/-- Witness for C9 at `x = 7/2`, two tables: `fmod(7/2, 2) = 3/2`, cast
to index 1. -/
theorem c9_lognormal_table_index_witness :
    selectTableLognormal (7/2) 2 = ⌊(7/2 : ℚ) - (2 : ℚ) * (⌊(7/2 : ℚ) / (2 : ℚ)⌋ : ℚ)⌋ ∧
    0 ≤ selectTableLognormal (7/2) 2 ∧ selectTableLognormal (7/2) 2 < 2 :=
  c9_lognormal_table_index (7/2) 2 (by norm_num) (by norm_num)

/-- Claim C10: a request carrying no `serviceTime` parameter is admitted
normally and its completion is scheduled exactly 1.0 time units after
admission (the hard-coded default), not rejected. -/
theorem c10_default_service_time (now : ℚ) (req : Request) (s : TableState)
    (h : req.serviceTime = none) :
    (startServiceForRequest now req s).serviceEvents =
      s.serviceEvents ++ [{ req := req, scheduledTime := now + 1 }] := by
  rw [startService_serviceEvents]
  simp [pendingOf, h]

/-- Witness for C10: a parameterless request admitted at time 2 completes
at time 3. -/
theorem c10_default_service_time_witness :
    (({ kind := 0, userId := none, arrivalTime := none,
        serviceTime := none } : Request).serviceTime = none) ∧
    (startServiceForRequest 2
        { kind := 0, userId := none, arrivalTime := none, serviceTime := none }
        initTable).serviceEvents =
      initTable.serviceEvents ++
        [{ req := { kind := 0, userId := none, arrivalTime := none,
                    serviceTime := none },
           scheduledTime := 2 + 1 }] :=
  ⟨rfl, c10_default_service_time 2 _ initTable rfl⟩
